import Mathlib

/-
Verification of the secure data-sanitization engine of usb-boot-hut
(src/src/disk/wipe.rs, src/src/cli/commands.rs, src/src/cli/mod.rs).

The engine is shallowly embedded: each Rust function that performs device
I/O is modelled as a pure Lean function from its inputs (device size in
bytes, plus an explicit fault-injection environment standing for the
outcomes of the fallible OS calls) to the trace of observable I/O events
it performs together with its Result value.  Machine integers (u64/usize
byte counters) are modelled as Nat: the Rust code only adds bounded chunk
sizes up to the device size, so no wrap-around can occur.
-/

namespace UsbBootHut

/-- Error type: models UsbBootHutError as used in wipe.rs, where every
failure is wrapped as UsbBootHutError::Device(formatted message). -/
inductive WipeError where
  | device (msg : String)
deriving DecidableEq

/-- Observable I/O events of a single wipe pass.
write off len  models file.write_all of len bytes at byte offset off;
prog p         models progress_callback(p) with percentage p;
readRand len   models urandom.read_exact of len bytes. -/
inductive Ev where
  | write (off len : Nat)
  | prog (p : Nat)
  | readRand (len : Nat)
deriving DecidableEq

/-- CHUNK_SIZE: usize = 4 * 1024 * 1024 (wipe.rs lines 62, 255, 293). -/
def chunkSize : Nat := 4 * 1024 * 1024

/-- Models the progress percentage ((written as f64 / size as f64) * 100.0)
as u8 (wipe.rs lines 87, 265, 309).  For the byte counts arising here
(written a multiple of 2^22 or equal to size, size below 2^53) the f64
computation is exact up to the final truncating cast, which for values in
[0,100] agrees with Nat floor division. -/
def pct (written size : Nat) : Nat := written * 100 / size

/-- The chunked write loop of SecureWipe::wipe_with_pattern (wipe.rs lines
257-267), shared verbatim by wipe_with_repeating_pattern (lines 301-311):
  while written < size:
    to_write := min CHUNK_SIZE (size - written)
    file.write_all(buffer[..to_write])  (may fail: mapped to
      Device("Failed to write: " ++ e))
    written += to_write
    progress_callback(pct written size)
failAt = some k makes the write attempted at byte offset k fail with the
OS error text msg; failAt = none makes every write succeed.  Returns the
event trace together with the error of the Result (none = Ok). -/
def chunkLoop (failAt : Option Nat) (msg : String) (size written : Nat) :
    List Ev × Option WipeError :=
  if _h : written < size then
    if failAt = some written then
      ([], some (WipeError.device ("Failed to write: " ++ msg)))
    else
      let toWrite := min chunkSize (size - written)
      let rest := chunkLoop failAt msg size (written + toWrite)
      (Ev.write written toWrite :: Ev.prog (pct (written + toWrite) size) :: rest.1,
        rest.2)
  else ([], none)
termination_by size - written
decreasing_by
  simp only [chunkSize] at *
  omega

/-- The chunked write loop of SecureWipe::wipe_with_progress (wipe.rs lines
72-89).  Identical to chunkLoop except that before every write the whole
CHUNK_SIZE buffer is refilled from /dev/urandom:
  while written < size:
    urandom.read_exact(buffer)          (may fail: "Failed to read random")
    to_write := min CHUNK_SIZE (size - written)
    file.write_all(buffer[..to_write])  (may fail: "Failed to write")
    written += to_write
    progress_callback(pct written size)
readFailAt / writeFailAt inject a failure of the read / write performed
when the cursor is at that byte offset. -/
def randChunkLoop (readFailAt writeFailAt : Option Nat) (msg : String)
    (size written : Nat) : List Ev × Option WipeError :=
  if _h : written < size then
    if readFailAt = some written then
      ([], some (WipeError.device ("Failed to read random: " ++ msg)))
    else if writeFailAt = some written then
      ([Ev.readRand chunkSize],
        some (WipeError.device ("Failed to write: " ++ msg)))
    else
      let toWrite := min chunkSize (size - written)
      let rest := randChunkLoop readFailAt writeFailAt msg size (written + toWrite)
      (Ev.readRand chunkSize :: Ev.write written toWrite ::
        Ev.prog (pct (written + toWrite) size) :: rest.1,
        rest.2)
  else ([], none)
termination_by size - written
decreasing_by
  simp only [chunkSize] at *
  omega

/-- SecureWipe::wipe_with_pattern (wipe.rs lines 241-273) on a device of
the given size.  The pattern byte only determines the (constant) buffer
contents, which the event trace does not record, so it is not a
parameter of the trace. -/
def wipeWithPatternRun (failAt : Option Nat) (msg : String) (size : Nat) :
    List Ev × Option WipeError :=
  chunkLoop failAt msg size 0

/-- SecureWipe::wipe_with_repeating_pattern (wipe.rs lines 275-317):
rejects an empty pattern up front, then runs the identical chunk loop. -/
def wipeWithRepeatingPatternRun (pattern : List Nat) (failAt : Option Nat)
    (msg : String) (size : Nat) : List Ev × Option WipeError :=
  if pattern = [] then ([], some (WipeError.device "Empty pattern"))
  else chunkLoop failAt msg size 0

/-- SecureWipe::wipe_with_progress / wipe_with_random (wipe.rs lines
46-95, 319-324) on a device of the given size. -/
def wipeWithProgressRun (readFailAt writeFailAt : Option Nat) (msg : String)
    (size : Nat) : List Ev × Option WipeError :=
  randChunkLoop readFailAt writeFailAt msg size 0

/-- The wipe pattern selected on the command line (cli/mod.rs lines
245-256). -/
inductive WipePattern where
  | random
  | zeros
  | dod
  | gutmann
deriving DecidableEq

/-- Classification of one pass of a wipe standard:
fixedByte b  — the whole device is overwritten with byte b
               (wipe_with_pattern / wipe_with_zeros);
repeating p  — the device is overwritten with pattern p tiled
               (wipe_with_repeating_pattern);
random       — the device is overwritten with fresh OS entropy
               (wipe_with_random). -/
inductive PassKind where
  | fixedByte (b : Nat)
  | repeating (pat : List Nat)
  | random
deriving DecidableEq

/-- The 35-entry pattern table of SecureWipe::nuke_gutmann (wipe.rs lines
178-211), transcribed byte for byte.  An empty entry (vec![0; 0] in the
source) marks a random pass. -/
def gutmannPatterns : List (List Nat) :=
  [ [], [], [], [],
    [0x55, 0x55, 0x55],
    [0xAA, 0xAA, 0xAA],
    [0x92, 0x49, 0x24],
    [0x49, 0x24, 0x92],
    [0x24, 0x92, 0x49],
    [0x00, 0x00, 0x00],
    [0x11, 0x11, 0x11],
    [0x22, 0x22, 0x22],
    [0x33, 0x33, 0x33],
    [0x44, 0x44, 0x44],
    [0x55, 0x55, 0x55],
    [0x66, 0x66, 0x66],
    [0x77, 0x77, 0x77],
    [0x88, 0x88, 0x88],
    [0x99, 0x99, 0x99],
    [0xAA, 0xAA, 0xAA],
    [0xBB, 0xBB, 0xBB],
    [0xCC, 0xCC, 0xCC],
    [0xDD, 0xDD, 0xDD],
    [0xEE, 0xEE, 0xEE],
    [0xFF, 0xFF, 0xFF],
    [0x92, 0x49, 0x24],
    [0x49, 0x24, 0x92],
    [0x24, 0x92, 0x49],
    [0x6D, 0xB6, 0xDB],
    [0xB6, 0xDB, 0x6D],
    [0xDB, 0x6D, 0xB6],
    [], [], [], [] ]

/-- nuke_gutmann dispatches on pattern.is_empty(): empty means a random
pass, otherwise a repeating-pattern pass (wipe.rs lines 213-229). -/
def passOfGutmann (p : List Nat) : PassKind :=
  if p = [] then PassKind.random else PassKind.repeating p

/-- The ordered pass schedule executed by SecureWipe::nuke_drive (wipe.rs
lines 124-131) for a given pattern and caller-supplied pass count:
nuke_random / nuke_zeros run `for pass in 1..=passes` identical passes
(lines 133-151); nuke_dod and nuke_gutmann take no pass count at all
(lines 153-232). -/
def nukePassList : WipePattern → Nat → List PassKind
  | WipePattern.random, passes => List.replicate passes PassKind.random
  | WipePattern.zeros, passes => List.replicate passes (PassKind.fixedByte 0x00)
  | WipePattern.dod, _ =>
      [PassKind.fixedByte 0x00, PassKind.fixedByte 0xFF, PassKind.random]
  | WipePattern.gutmann, _ => gutmannPatterns.map passOfGutmann

/-- Fault-injection environment for a multi-pass run: for each 1-based
pass index, the byte offset (if any) at which that pass's urandom read
resp. device write fails, and the OS error text. -/
structure IoEnv where
  readFailAt : Nat → Option Nat
  writeFailAt : Nat → Option Nat
  msg : String

/-- Runs one scheduled pass through the writer the source uses for that
pass kind. -/
def runPass (env : IoEnv) (idx : Nat) (k : PassKind) (size : Nat) :
    List Ev × Option WipeError :=
  match k with
  | PassKind.fixedByte _ => wipeWithPatternRun (env.writeFailAt idx) env.msg size
  | PassKind.repeating pat =>
      wipeWithRepeatingPatternRun pat (env.writeFailAt idx) env.msg size
  | PassKind.random =>
      wipeWithProgressRun (env.readFailAt idx) (env.writeFailAt idx) env.msg size

/-- Sequential execution of a pass schedule with fail-fast propagation:
each nuke_* helper chains its passes with the ? operator, so the first
pass returning Err aborts the whole run (wipe.rs lines 133-232).  Events
are tagged with their 1-based pass index. -/
def runSchedule (env : IoEnv) (size : Nat) :
    Nat → List PassKind → List (Nat × Ev) × Option WipeError
  | _, [] => ([], none)
  | idx, k :: rest =>
    match (runPass env idx k size).2 with
    | some e => ((runPass env idx k size).1.map (fun ev => (idx, ev)), some e)
    | none =>
      ((runPass env idx k size).1.map (fun ev => (idx, ev)) ++
          (runSchedule env size (idx + 1) rest).1,
        (runSchedule env size (idx + 1) rest).2)

/-- SecureWipe::nuke_drive (wipe.rs lines 124-131): dispatches the chosen
standard and executes its passes in order. -/
def nukeDriveRun (p : WipePattern) (passes : Nat) (env : IoEnv) (size : Nat) :
    List (Nat × Ev) × Option WipeError :=
  runSchedule env size 1 (nukePassList p passes)

/-- The signature list of SecureWipe::verify_wiped (wipe.rs lines
107-113), as byte values: "EFI PART", 55 AA, "NTFS", "FAT32", 53 EF. -/
def scanSignatures : List (List Nat) :=
  [ [0x45, 0x46, 0x49, 0x20, 0x50, 0x41, 0x52, 0x54],
    [0x55, 0xAA],
    [0x4E, 0x54, 0x46, 0x53],
    [0x46, 0x41, 0x54, 0x33, 0x32],
    [0x53, 0xEF] ]

/-- 1024 * 1024: the scanned prefix length of verify_wiped (wipe.rs line
102). -/
def mib : Nat := 1024 * 1024

/-- SecureWipe::verify_wiped (wipe.rs lines 97-122) on a device with the
given byte contents.  read_exact on a 1 MiB buffer fails with an
unexpected-EOF I/O error when the device holds fewer than 1 MiB; otherwise
buffer.windows(sig.len()).any(|w| w == sig) scans each signature at every
offset of the prefix and Ok(false) is returned on the first hit. -/
def verify_wiped (device : List Nat) : Except WipeError Bool :=
  if device.length < mib then
    Except.error (WipeError.device "Failed to read: unexpected end of file")
  else if scanSignatures.any (fun sig => decide (sig <:+: device.take mib)) then
    Except.ok false
  else
    Except.ok true

/-- The write events of a trace, as (offset, length) pairs. -/
def writesOf (evs : List Ev) : List (Nat × Nat) :=
  evs.filterMap (fun ev =>
    match ev with
    | Ev.write o l => some (o, l)
    | _ => none)

/-- The progress values of a trace, in order. -/
def progValues (evs : List Ev) : List Nat :=
  evs.filterMap (fun ev =>
    match ev with
    | Ev.prog p => some p
    | _ => none)

/-- Total number of bytes written in a trace. -/
def totalWritten (evs : List Ev) : Nat :=
  ((writesOf evs).map Prod.snd).sum

/-- Checks that a trace consists of write events each immediately followed
by exactly one progress event (the synchronous per-chunk reporting shape). -/
def writeThenProg : List Ev → Bool
  | [] => true
  | Ev.write _ _ :: Ev.prog _ :: rest => writeThenProg rest
  | _ => false

/-- Checks that a trace consists of groups of one entropy read, one chunk
write and then exactly one progress event (the random writer's synchronous
per-chunk reporting shape). -/
def readWriteThenProg : List Ev → Bool
  | [] => true
  | Ev.readRand _ :: Ev.write _ _ :: Ev.prog _ :: rest =>
      readWriteThenProg rest
  | _ => false

/-- Scans a trace and checks that every write happens with a buffer that
was refilled from the entropy source after the previous write: a readRand
marks the buffer fresh, a write requires freshness and consumes it. -/
def refreshedBeforeWrite : List Ev → Bool → Bool
  | [], _ => true
  | Ev.readRand _ :: rest, _ => refreshedBeforeWrite rest true
  | Ev.write _ _ :: rest, fresh => fresh && refreshedBeforeWrite rest false
  | Ev.prog _ :: rest, fresh => refreshedBeforeWrite rest fresh

/-- Whether a scheduled pass is a random pass. -/
def isRandomPass : PassKind → Bool
  | PassKind.random => true
  | _ => false

/-- Whether a scheduled pass is a fixed short repeating byte pattern
(1 to 4 bytes, per the spec's FixedBytes pattern kind). -/
def isShortFixedPass : PassKind → Bool
  | PassKind.repeating pat => !pat.isEmpty && pat.length ≤ 4
  | _ => false

/-- Modelled from the spec (section 4.4 and claim C3): signature presence
with the positional qualifiers the spec states — GPT header text anywhere,
55 AA exactly at offset 510, 53 EF exactly at offset 1080 (0x438), and
NTFS / FAT32 anywhere.  This is the spec's reading, to be compared with
verify_wiped, whose scan is translated from the source. -/
def specSignaturePresent (buffer : List Nat) : Prop :=
  [0x45, 0x46, 0x49, 0x20, 0x50, 0x41, 0x52, 0x54] <:+: buffer ∨
  (buffer.getD 510 0 = 0x55 ∧ buffer.getD 511 0 = 0xAA) ∨
  (buffer.getD 1080 0 = 0x53 ∧ buffer.getD 1081 0 = 0xEF) ∨
  [0x4E, 0x54, 0x46, 0x53] <:+: buffer ∨
  [0x46, 0x41, 0x54, 0x33, 0x32] <:+: buffer

/-- Modelled from the spec (section 4.2 and claim C8): the sequence of
(bytesWrittenSoFar, passSizeBytes) pairs the spec says the progress sink
receives, one per chunk of the pass. -/
def specProgressPairs (size written : Nat) : List (Nat × Nat) :=
  if _h : written < size then
    (written + min chunkSize (size - written), size) ::
      specProgressPairs size (written + min chunkSize (size - written))
  else []
termination_by size - written
decreasing_by
  simp only [chunkSize] at *
  omega

/-- The environment in which every OS call succeeds. -/
def okEnv : IoEnv :=
  { readFailAt := fun _ => none, writeFailAt := fun _ => none, msg := "" }

/-- The environment in which exactly the device write at byte offset k of
pass 2 fails, with OS error text msg. -/
def failPass2Env (k : Nat) (msg : String) : IoEnv :=
  { readFailAt := fun _ => none
    writeFailAt := fun idx => if idx = 2 then some k else none
    msg := msg }

/-- The events of pass p in a tagged multi-pass trace. -/
def passEvents (tr : List (Nat × Ev)) (p : Nat) : List Ev :=
  (tr.filter (fun pe => pe.1 == p)).map Prod.snd

theorem chunkSize_pos : 0 < chunkSize := by
  norm_num [chunkSize]

theorem chunkLoop_stop (failAt : Option Nat) (msg : String) (size written : Nat)
    (h : ¬ written < size) : chunkLoop failAt msg size written = ([], none) := by
  rw [chunkLoop]
  simp [h]

theorem chunkLoop_failStep (failAt : Option Nat) (msg : String)
    (size written : Nat) (h : written < size) (hf : failAt = some written) :
    chunkLoop failAt msg size written =
      ([], some (WipeError.device ("Failed to write: " ++ msg))) := by
  rw [chunkLoop]
  simp [h, hf]

theorem chunkLoop_step (failAt : Option Nat) (msg : String) (size written : Nat)
    (h : written < size) (hf : ¬ failAt = some written) :
    chunkLoop failAt msg size written =
      (Ev.write written (min chunkSize (size - written)) ::
        Ev.prog (pct (written + min chunkSize (size - written)) size) ::
        (chunkLoop failAt msg size (written + min chunkSize (size - written))).1,
        (chunkLoop failAt msg size (written + min chunkSize (size - written))).2) := by
  rw [chunkLoop]
  simp [h, hf]

theorem randChunkLoop_stop (readFailAt writeFailAt : Option Nat) (msg : String)
    (size written : Nat) (h : ¬ written < size) :
    randChunkLoop readFailAt writeFailAt msg size written = ([], none) := by
  rw [randChunkLoop]
  simp [h]

theorem randChunkLoop_readFailStep (readFailAt writeFailAt : Option Nat)
    (msg : String) (size written : Nat) (h : written < size)
    (hr : readFailAt = some written) :
    randChunkLoop readFailAt writeFailAt msg size written =
      ([], some (WipeError.device ("Failed to read random: " ++ msg))) := by
  rw [randChunkLoop]
  simp [h, hr]

theorem randChunkLoop_writeFailStep (readFailAt writeFailAt : Option Nat)
    (msg : String) (size written : Nat) (h : written < size)
    (hr : ¬ readFailAt = some written) (hw : writeFailAt = some written) :
    randChunkLoop readFailAt writeFailAt msg size written =
      ([Ev.readRand chunkSize],
        some (WipeError.device ("Failed to write: " ++ msg))) := by
  rw [randChunkLoop]
  simp [h, hr, hw]

theorem randChunkLoop_step (readFailAt writeFailAt : Option Nat) (msg : String)
    (size written : Nat) (h : written < size)
    (hr : ¬ readFailAt = some written) (hw : ¬ writeFailAt = some written) :
    randChunkLoop readFailAt writeFailAt msg size written =
      (Ev.readRand chunkSize ::
        Ev.write written (min chunkSize (size - written)) ::
        Ev.prog (pct (written + min chunkSize (size - written)) size) ::
        (randChunkLoop readFailAt writeFailAt msg size
          (written + min chunkSize (size - written))).1,
        (randChunkLoop readFailAt writeFailAt msg size
          (written + min chunkSize (size - written))).2) := by
  rw [randChunkLoop]
  simp [h, hr, hw]

theorem specProgressPairs_stop (size written : Nat) (h : ¬ written < size) :
    specProgressPairs size written = [] := by
  rw [specProgressPairs]
  simp [h]

theorem specProgressPairs_step (size written : Nat) (h : written < size) :
    specProgressPairs size written =
      (written + min chunkSize (size - written), size) ::
        specProgressPairs size (written + min chunkSize (size - written)) := by
  rw [specProgressPairs]
  simp [h]

@[simp] theorem writesOf_nil : writesOf [] = [] := rfl

@[simp] theorem writesOf_write (o l : Nat) (r : List Ev) :
    writesOf (Ev.write o l :: r) = (o, l) :: writesOf r := rfl

@[simp] theorem writesOf_prog (p : Nat) (r : List Ev) :
    writesOf (Ev.prog p :: r) = writesOf r := rfl

@[simp] theorem writesOf_readRand (l : Nat) (r : List Ev) :
    writesOf (Ev.readRand l :: r) = writesOf r := rfl

@[simp] theorem progValues_nil : progValues [] = [] := rfl

@[simp] theorem progValues_write (o l : Nat) (r : List Ev) :
    progValues (Ev.write o l :: r) = progValues r := rfl

@[simp] theorem progValues_prog (p : Nat) (r : List Ev) :
    progValues (Ev.prog p :: r) = p :: progValues r := rfl

@[simp] theorem progValues_readRand (l : Nat) (r : List Ev) :
    progValues (Ev.readRand l :: r) = progValues r := rfl

@[simp] theorem totalWritten_nil : totalWritten [] = 0 := rfl

@[simp] theorem totalWritten_write (o l : Nat) (r : List Ev) :
    totalWritten (Ev.write o l :: r) = l + totalWritten r := by
  simp [totalWritten]

@[simp] theorem totalWritten_prog (p : Nat) (r : List Ev) :
    totalWritten (Ev.prog p :: r) = totalWritten r := by
  simp [totalWritten]

@[simp] theorem totalWritten_readRand (l : Nat) (r : List Ev) :
    totalWritten (Ev.readRand l :: r) = totalWritten r := by
  simp [totalWritten]

theorem chunkLoop_none_ok (msg : String) :
    ∀ n size written, size - written ≤ n →
      (chunkLoop none msg size written).2 = none := by
  intro n
  induction n with
  | zero =>
    intro size written hle
    rw [chunkLoop_stop none msg size written (by omega)]
  | succ n ih =>
    intro size written hle
    by_cases h : written < size
    · rw [chunkLoop_step none msg size written h (by simp)]
      have ht : 0 < min chunkSize (size - written) := by
        have := chunkSize_pos
        omega
      exact ih size (written + min chunkSize (size - written)) (by omega)
    · rw [chunkLoop_stop none msg size written h]

theorem chunkLoop_sum (failAt : Option Nat) (msg : String) :
    ∀ n size written, size - written ≤ n →
      (chunkLoop failAt msg size written).2 = none →
      totalWritten (chunkLoop failAt msg size written).1 = size - written := by
  intro n
  induction n with
  | zero =>
    intro size written hle _hok
    rw [chunkLoop_stop failAt msg size written (by omega)]
    simp
    omega
  | succ n ih =>
    intro size written hle hok
    by_cases h : written < size
    · by_cases hf : failAt = some written
      · rw [chunkLoop_failStep failAt msg size written h hf] at hok
        simp at hok
      · rw [chunkLoop_step failAt msg size written h hf] at hok ⊢
        have ht : 0 < min chunkSize (size - written) := by
          have := chunkSize_pos
          omega
        have hle2 : size - (written + min chunkSize (size - written)) ≤ n := by
          omega
        have := ih size (written + min chunkSize (size - written)) hle2 hok
        simp [this]
        omega
    · rw [chunkLoop_stop failAt msg size written h]
      simp
      omega

theorem chunkLoop_bounds (failAt : Option Nat) (msg : String) :
    ∀ n size written, size - written ≤ n →
      ∀ pr ∈ writesOf (chunkLoop failAt msg size written).1,
        written ≤ pr.1 ∧ pr.1 + pr.2 ≤ size := by
  intro n
  induction n with
  | zero =>
    intro size written hle pr hpr
    rw [chunkLoop_stop failAt msg size written (by omega)] at hpr
    simp at hpr
  | succ n ih =>
    intro size written hle pr hpr
    by_cases h : written < size
    · by_cases hf : failAt = some written
      · rw [chunkLoop_failStep failAt msg size written h hf] at hpr
        simp at hpr
      · rw [chunkLoop_step failAt msg size written h hf] at hpr
        simp only [writesOf_write, writesOf_prog, List.mem_cons] at hpr
        rcases hpr with hpr | hpr
        · subst hpr
          constructor
          · exact Nat.le_refl _
          · simp
            omega
        · have ht : 0 < min chunkSize (size - written) := by
            have := chunkSize_pos
            omega
          have hle2 : size - (written + min chunkSize (size - written)) ≤ n := by
            omega
          have := ih size (written + min chunkSize (size - written)) hle2 pr hpr
          omega
    · rw [chunkLoop_stop failAt msg size written h] at hpr
      simp at hpr

theorem chunkLoop_single (failAt : Option Nat) (msg : String) (size : Nat)
    (h0 : 0 < size) (hsz : size ≤ chunkSize)
    (hok : (chunkLoop failAt msg size 0).2 = none) :
    (chunkLoop failAt msg size 0).1 = [Ev.write 0 size, Ev.prog 100] := by
  by_cases hf : failAt = some 0
  · rw [chunkLoop_failStep failAt msg size 0 h0 hf] at hok
    simp at hok
  · have hmin : min chunkSize (size - 0) = size := by
      omega
    have hpct : pct (0 + min chunkSize (size - 0)) size = 100 := by
      rw [hmin]
      simp [pct]
      rw [Nat.mul_comm]
      exact Nat.mul_div_cancel 100 h0
    rw [chunkLoop_step failAt msg size 0 h0 hf, hpct, hmin]
    rw [chunkLoop_stop failAt msg size (0 + size) (by omega)]

theorem randChunkLoop_none_ok (msg : String) :
    ∀ n size written, size - written ≤ n →
      (randChunkLoop none none msg size written).2 = none := by
  intro n
  induction n with
  | zero =>
    intro size written hle
    rw [randChunkLoop_stop none none msg size written (by omega)]
  | succ n ih =>
    intro size written hle
    by_cases h : written < size
    · rw [randChunkLoop_step none none msg size written h (by simp) (by simp)]
      have ht : 0 < min chunkSize (size - written) := by
        have := chunkSize_pos
        omega
      exact ih size (written + min chunkSize (size - written)) (by omega)
    · rw [randChunkLoop_stop none none msg size written h]

theorem randChunkLoop_sum (rf wf : Option Nat) (msg : String) :
    ∀ n size written, size - written ≤ n →
      (randChunkLoop rf wf msg size written).2 = none →
      totalWritten (randChunkLoop rf wf msg size written).1 = size - written := by
  intro n
  induction n with
  | zero =>
    intro size written hle _hok
    rw [randChunkLoop_stop rf wf msg size written (by omega)]
    simp
    omega
  | succ n ih =>
    intro size written hle hok
    by_cases h : written < size
    · by_cases hr : rf = some written
      · rw [randChunkLoop_readFailStep rf wf msg size written h hr] at hok
        simp at hok
      · by_cases hw : wf = some written
        · rw [randChunkLoop_writeFailStep rf wf msg size written h hr hw] at hok
          simp at hok
        · rw [randChunkLoop_step rf wf msg size written h hr hw] at hok ⊢
          have ht : 0 < min chunkSize (size - written) := by
            have := chunkSize_pos
            omega
          have := ih size (written + min chunkSize (size - written)) (by omega) hok
          simp [this]
          omega
    · rw [randChunkLoop_stop rf wf msg size written h]
      simp
      omega

theorem randChunkLoop_bounds (rf wf : Option Nat) (msg : String) :
    ∀ n size written, size - written ≤ n →
      ∀ pr ∈ writesOf (randChunkLoop rf wf msg size written).1,
        written ≤ pr.1 ∧ pr.1 + pr.2 ≤ size := by
  intro n
  induction n with
  | zero =>
    intro size written hle pr hpr
    rw [randChunkLoop_stop rf wf msg size written (by omega)] at hpr
    simp at hpr
  | succ n ih =>
    intro size written hle pr hpr
    by_cases h : written < size
    · by_cases hr : rf = some written
      · rw [randChunkLoop_readFailStep rf wf msg size written h hr] at hpr
        simp at hpr
      · by_cases hw : wf = some written
        · rw [randChunkLoop_writeFailStep rf wf msg size written h hr hw] at hpr
          simp at hpr
        · rw [randChunkLoop_step rf wf msg size written h hr hw] at hpr
          simp only [writesOf_readRand, writesOf_write, writesOf_prog,
            List.mem_cons] at hpr
          rcases hpr with hpr | hpr
          · subst hpr
            constructor
            · exact Nat.le_refl _
            · simp
              omega
          · have ht : 0 < min chunkSize (size - written) := by
              have := chunkSize_pos
              omega
            have := ih size (written + min chunkSize (size - written)) (by omega)
              pr hpr
            omega
    · rw [randChunkLoop_stop rf wf msg size written h] at hpr
      simp at hpr

theorem randChunkLoop_single (rf wf : Option Nat) (msg : String) (size : Nat)
    (h0 : 0 < size) (hsz : size ≤ chunkSize)
    (hok : (randChunkLoop rf wf msg size 0).2 = none) :
    (randChunkLoop rf wf msg size 0).1 =
      [Ev.readRand chunkSize, Ev.write 0 size, Ev.prog 100] := by
  by_cases hr : rf = some 0
  · rw [randChunkLoop_readFailStep rf wf msg size 0 h0 hr] at hok
    simp at hok
  · by_cases hw : wf = some 0
    · rw [randChunkLoop_writeFailStep rf wf msg size 0 h0 hr hw] at hok
      simp at hok
    · have hmin : min chunkSize (size - 0) = size := by
        omega
      have hpct : pct (0 + min chunkSize (size - 0)) size = 100 := by
        rw [hmin]
        simp [pct]
        rw [Nat.mul_comm]
        exact Nat.mul_div_cancel 100 h0
      rw [randChunkLoop_step rf wf msg size 0 h0 hr hw, hpct, hmin]
      rw [randChunkLoop_stop rf wf msg size (0 + size) (by omega)]

theorem chunkLoop_step_fst (failAt : Option Nat) (msg : String)
    (size written : Nat) (h : written < size) (hf : ¬ failAt = some written) :
    (chunkLoop failAt msg size written).1 =
      Ev.write written (min chunkSize (size - written)) ::
        Ev.prog (pct (written + min chunkSize (size - written)) size) ::
        (chunkLoop failAt msg size (written + min chunkSize (size - written))).1 := by
  rw [chunkLoop_step failAt msg size written h hf]

theorem chunkLoop_step_snd (failAt : Option Nat) (msg : String)
    (size written : Nat) (h : written < size) (hf : ¬ failAt = some written) :
    (chunkLoop failAt msg size written).2 =
      (chunkLoop failAt msg size (written + min chunkSize (size - written))).2 := by
  rw [chunkLoop_step failAt msg size written h hf]

theorem chunkLoop_failWrites (msg : String) :
    ∀ q size written, written + chunkSize * q < size →
      (chunkLoop (some (written + chunkSize * q)) msg size written).2 =
        some (WipeError.device ("Failed to write: " ++ msg)) ∧
      writesOf (chunkLoop (some (written + chunkSize * q)) msg size written).1 =
        (List.range q).map (fun i => (written + i * chunkSize, chunkSize)) := by
  intro q
  induction q with
  | zero =>
    intro size written hKs
    simp only [Nat.mul_zero, Nat.add_zero] at hKs ⊢
    rw [chunkLoop_failStep (some written) msg size written hKs rfl]
    simp
  | succ n ih =>
    intro size written hKs
    have hmul : chunkSize * (n + 1) = chunkSize * n + chunkSize := by
      ring
    have hCpos := chunkSize_pos
    have h : written < size := by
      omega
    have hne : ¬ (some (written + chunkSize * (n + 1)) : Option Nat) =
        some written := by
      simp
      omega
    have hmin : min chunkSize (size - written) = chunkSize := by
      omega
    have hKeq : written + chunkSize * (n + 1) =
        (written + chunkSize) + chunkSize * n := by
      omega
    have hrec := ih size (written + chunkSize) (by omega)
    constructor
    · rw [chunkLoop_step_snd (some (written + chunkSize * (n + 1))) msg size
        written h hne, hmin, hKeq]
      exact hrec.1
    · rw [chunkLoop_step_fst (some (written + chunkSize * (n + 1))) msg size
        written h hne, hmin, hKeq]
      rw [writesOf_write, writesOf_prog, hrec.2]
      rw [List.range_succ_eq_map]
      simp only [List.map_cons, List.map_map, Nat.zero_mul, Nat.add_zero]
      congr 1
      apply List.map_congr_left
      intro i _hi
      simp only [Function.comp_apply, Prod.mk.injEq, Nat.succ_eq_add_one]
      exact ⟨by ring, trivial⟩

theorem randChunkLoop_step_fst (readFailAt writeFailAt : Option Nat)
    (msg : String) (size written : Nat) (h : written < size)
    (hr : ¬ readFailAt = some written) (hw : ¬ writeFailAt = some written) :
    (randChunkLoop readFailAt writeFailAt msg size written).1 =
      Ev.readRand chunkSize ::
        Ev.write written (min chunkSize (size - written)) ::
        Ev.prog (pct (written + min chunkSize (size - written)) size) ::
        (randChunkLoop readFailAt writeFailAt msg size
          (written + min chunkSize (size - written))).1 := by
  rw [randChunkLoop_step readFailAt writeFailAt msg size written h hr hw]

@[simp] theorem writeThenProg_nil : writeThenProg [] = true := rfl

@[simp] theorem writeThenProg_cons (o l p : Nat) (r : List Ev) :
    writeThenProg (Ev.write o l :: Ev.prog p :: r) = writeThenProg r := rfl

theorem chunkLoop_none_shape (msg : String) :
    ∀ n size written, size - written ≤ n →
      writeThenProg (chunkLoop none msg size written).1 = true ∧
      progValues (chunkLoop none msg size written).1 =
        (specProgressPairs size written).map (fun pr => pct pr.1 pr.2) := by
  intro n
  induction n with
  | zero =>
    intro size written hle
    rw [chunkLoop_stop none msg size written (by omega),
      specProgressPairs_stop size written (by omega)]
    exact ⟨rfl, rfl⟩
  | succ n ih =>
    intro size written hle
    by_cases h : written < size
    · have ht : 0 < min chunkSize (size - written) := by
        have := chunkSize_pos
        omega
      have hrec := ih size (written + min chunkSize (size - written)) (by omega)
      constructor
      · rw [chunkLoop_step_fst none msg size written h (by simp),
          writeThenProg_cons]
        exact hrec.1
      · rw [chunkLoop_step_fst none msg size written h (by simp),
          progValues_write, progValues_prog, hrec.2,
          specProgressPairs_step size written h, List.map_cons]
    · rw [chunkLoop_stop none msg size written h,
        specProgressPairs_stop size written h]
      exact ⟨rfl, rfl⟩

@[simp] theorem readWriteThenProg_nil : readWriteThenProg [] = true := rfl

@[simp] theorem readWriteThenProg_cons (l o k p : Nat) (r : List Ev) :
    readWriteThenProg (Ev.readRand l :: Ev.write o k :: Ev.prog p :: r) =
      readWriteThenProg r := rfl

theorem randChunkLoop_none_shape (msg : String) :
    ∀ n size written, size - written ≤ n →
      readWriteThenProg (randChunkLoop none none msg size written).1 =
        true ∧
      progValues (randChunkLoop none none msg size written).1 =
        (specProgressPairs size written).map (fun pr => pct pr.1 pr.2) := by
  intro n
  induction n with
  | zero =>
    intro size written hle
    rw [randChunkLoop_stop none none msg size written (by omega),
      specProgressPairs_stop size written (by omega)]
    exact ⟨rfl, rfl⟩
  | succ n ih =>
    intro size written hle
    by_cases h : written < size
    · have ht : 0 < min chunkSize (size - written) := by
        have := chunkSize_pos
        omega
      have hrec := ih size (written + min chunkSize (size - written))
        (by omega)
      constructor
      · rw [randChunkLoop_step_fst none none msg size written h (by simp)
          (by simp), readWriteThenProg_cons]
        exact hrec.1
      · rw [randChunkLoop_step_fst none none msg size written h (by simp)
          (by simp), progValues_readRand, progValues_write, progValues_prog,
          hrec.2, specProgressPairs_step size written h, List.map_cons]
    · rw [randChunkLoop_stop none none msg size written h,
        specProgressPairs_stop size written h]
      exact ⟨rfl, rfl⟩

theorem randChunkLoop_refreshed (rf wf : Option Nat) (msg : String) :
    ∀ n size written b, size - written ≤ n →
      refreshedBeforeWrite (randChunkLoop rf wf msg size written).1 b = true := by
  intro n
  induction n with
  | zero =>
    intro size written b hle
    rw [randChunkLoop_stop rf wf msg size written (by omega)]
    rfl
  | succ n ih =>
    intro size written b hle
    by_cases h : written < size
    · by_cases hr : rf = some written
      · rw [randChunkLoop_readFailStep rf wf msg size written h hr]
        rfl
      · by_cases hw : wf = some written
        · rw [randChunkLoop_writeFailStep rf wf msg size written h hr hw]
          rfl
        · rw [randChunkLoop_step_fst rf wf msg size written h hr hw]
          have ht : 0 < min chunkSize (size - written) := by
            have := chunkSize_pos
            omega
          exact ih size (written + min chunkSize (size - written)) false
            (by omega)
    · rw [randChunkLoop_stop rf wf msg size written h]
      rfl

@[simp] theorem passEvents_nil (p : Nat) : passEvents [] p = [] := rfl

theorem passEvents_append (a b : List (Nat × Ev)) (p : Nat) :
    passEvents (a ++ b) p = passEvents a p ++ passEvents b p := by
  simp [passEvents, List.filter_append]

theorem passEvents_tag_eq (l : List Ev) (p : Nat) :
    passEvents (l.map (fun ev => (p, ev))) p = l := by
  induction l with
  | nil => rfl
  | cons a t ih =>
    simp only [List.map_cons, passEvents, List.filter_cons] at ih ⊢
    simp only [beq_self_eq_true, if_true, List.map_cons]
    rw [ih]

theorem passEvents_tag_ne (l : List Ev) (p q : Nat) (h : ¬ p = q) :
    passEvents (l.map (fun ev => (p, ev))) q = [] := by
  induction l with
  | nil => rfl
  | cons a t ih =>
    simp only [List.map_cons, passEvents, List.filter_cons] at ih ⊢
    have hb : ((p, a).1 == q) = false := by
      simp
      exact h
    rw [hb]
    simp only [Bool.false_eq_true, if_false]
    exact ih

theorem runSchedule_nil (env : IoEnv) (size idx : Nat) :
    runSchedule env size idx [] = ([], none) := rfl

theorem runSchedule_cons_ok (env : IoEnv) (size idx : Nat) (k : PassKind)
    (rest : List PassKind) (h : (runPass env idx k size).2 = none) :
    runSchedule env size idx (k :: rest) =
      ((runPass env idx k size).1.map (fun ev => (idx, ev)) ++
          (runSchedule env size (idx + 1) rest).1,
        (runSchedule env size (idx + 1) rest).2) := by
  simp only [runSchedule]
  rw [h]

theorem runSchedule_cons_err (env : IoEnv) (size idx : Nat) (k : PassKind)
    (rest : List PassKind) (e : WipeError)
    (h : (runPass env idx k size).2 = some e) :
    runSchedule env size idx (k :: rest) =
      ((runPass env idx k size).1.map (fun ev => (idx, ev)), some e) := by
  simp only [runSchedule]
  rw [h]

/-- C1: for every device size and every pass, the chunked write loop
(wipe_with_pattern's loop as well as wipe_with_progress's loop) writes no
byte past the extent, returns success only having written exactly
sizeBytes in total, and when 0 < sizeBytes < chunkSize (4 MiB) a
successful pass performs exactly one write, of the true remaining size. -/
theorem C1_pass_writes_exact_extent (fa rf wf : Option Nat) (msg : String)
    (size : Nat) :
    (∀ pr ∈ writesOf (wipeWithPatternRun fa msg size).1, pr.1 + pr.2 ≤ size) ∧
    ((wipeWithPatternRun fa msg size).2 = none →
      totalWritten (wipeWithPatternRun fa msg size).1 = size) ∧
    (0 < size → size < chunkSize → (wipeWithPatternRun fa msg size).2 = none →
      writesOf (wipeWithPatternRun fa msg size).1 = [(0, size)]) ∧
    (∀ pr ∈ writesOf (wipeWithProgressRun rf wf msg size).1,
      pr.1 + pr.2 ≤ size) ∧
    ((wipeWithProgressRun rf wf msg size).2 = none →
      totalWritten (wipeWithProgressRun rf wf msg size).1 = size) ∧
    (0 < size → size < chunkSize →
      (wipeWithProgressRun rf wf msg size).2 = none →
      writesOf (wipeWithProgressRun rf wf msg size).1 = [(0, size)]) := by
  refine ⟨?_, ?_, ?_, ?_, ?_, ?_⟩
  · intro pr hpr
    exact (chunkLoop_bounds fa msg size size 0 (by omega) pr hpr).2
  · intro hok
    have h2 := chunkLoop_sum fa msg size size 0 (by omega) hok
    show totalWritten (chunkLoop fa msg size 0).1 = size
    omega
  · intro h0 hsz hok
    have h3 := chunkLoop_single fa msg size h0 (Nat.le_of_lt hsz) hok
    show writesOf (chunkLoop fa msg size 0).1 = [(0, size)]
    rw [h3]
    rfl
  · intro pr hpr
    exact (randChunkLoop_bounds rf wf msg size size 0 (by omega) pr hpr).2
  · intro hok
    have h2 := randChunkLoop_sum rf wf msg size size 0 (by omega) hok
    show totalWritten (randChunkLoop rf wf msg size 0).1 = size
    omega
  · intro h0 hsz hok
    have h3 := randChunkLoop_single rf wf msg size h0 (Nat.le_of_lt hsz) hok
    show writesOf (randChunkLoop rf wf msg size 0).1 = [(0, size)]
    rw [h3]
    rfl

/-- C1 witness: on a 100-byte device with no injected failures, both
writers perform exactly one write of 100 bytes and write 100 bytes in
total. -/
theorem C1_pass_writes_exact_extent_witness :
    writesOf (wipeWithPatternRun none "" 100).1 = [(0, 100)] ∧
    totalWritten (wipeWithPatternRun none "" 100).1 = 100 ∧
    writesOf (wipeWithProgressRun none none "" 100).1 = [(0, 100)] := by
  have h := C1_pass_writes_exact_extent none none none "" 100
  have hok : (wipeWithPatternRun none "" 100).2 = none :=
    chunkLoop_none_ok "" 100 100 0 (by omega)
  have hokr : (wipeWithProgressRun none none "" 100).2 = none :=
    randChunkLoop_none_ok "" 100 100 0 (by omega)
  exact ⟨h.2.2.1 (by decide) (by decide) hok, h.2.1 hok,
    h.2.2.2.2.2 (by decide) (by decide) hokr⟩

/-- C2: for every caller-supplied pass count, the DoD 5220.22-M standard
schedules exactly 3 passes in the order zeros (0x00), ones (0xFF), random;
the count has no effect. -/
theorem C2_dod_fixed_three_passes (passes : Nat) :
    nukePassList WipePattern.dod passes =
      [PassKind.fixedByte 0x00, PassKind.fixedByte 0xFF, PassKind.random] ∧
    (nukePassList WipePattern.dod passes).length = 3 :=
  ⟨rfl, rfl⟩

/-- C5 counterexample: invoking the Random or Zeros standard with pass
count 0 does not fail with a configuration error — nuke_drive returns
success (Ok) having performed no I/O at all, so the claim that it fails
before any I/O is false at this input. -/
theorem C5_counterexample :
    (nukeDriveRun WipePattern.random 0 okEnv 100).2 = none ∧
    (nukeDriveRun WipePattern.zeros 0 okEnv 100).2 = none ∧
    (nukeDriveRun WipePattern.random 0 okEnv 100).1 = [] ∧
    (nukeDriveRun WipePattern.zeros 0 okEnv 100).1 = [] :=
  ⟨rfl, rfl, rfl, rfl⟩

/-- C5 amended: for the single-pass standards (Random, Zeros) invoked with
pass count 0, the `for pass in 1..=passes` loop executes zero iterations,
so the operation performs no I/O and returns success; no configuration
error is raised anywhere. -/
theorem C5_zero_passes_silent_success (p : WipePattern) (env : IoEnv)
    (size : Nat) (hp : p = WipePattern.random ∨ p = WipePattern.zeros) :
    nukeDriveRun p 0 env size = ([], none) := by
  rcases hp with h | h <;> subst h <;> rfl

/-- C5 witness: the amended statement at the Random standard, a concrete
environment and a 100-byte device. -/
theorem C5_zero_passes_silent_success_witness :
    nukeDriveRun WipePattern.random 0 okEnv 100 = ([], none) :=
  C5_zero_passes_silent_success WipePattern.random okEnv 100 (Or.inl rfl)

/-- C6: for every caller-supplied pass count, the Gutmann standard
schedules exactly 35 passes in fixed order: passes 1-4 and 32-35 are
random passes and passes 5-31 are fixed short repeating byte patterns. -/
theorem C6_gutmann_fixed_35_passes (passes : Nat) :
    (nukePassList WipePattern.gutmann passes).length = 35 ∧
    ((nukePassList WipePattern.gutmann passes).take 4).all isRandomPass =
      true ∧
    (((nukePassList WipePattern.gutmann passes).drop 4).take 27).all
      isShortFixedPass = true ∧
    ((nukePassList WipePattern.gutmann passes).drop 31).all isRandomPass =
      true := by
  have h : nukePassList WipePattern.gutmann passes =
      gutmannPatterns.map passOfGutmann := rfl
  rw [h]
  decide

/-- C7: in wipe_with_progress (the Random pass writer), every chunk write
is issued only after the buffer has been refilled from /dev/urandom since
the previous write: scanning any of its traces never finds a write whose
buffer was not freshly re-read. -/
theorem C7_random_pass_refreshes_buffer (rf wf : Option Nat) (msg : String)
    (size : Nat) :
    refreshedBeforeWrite (wipeWithProgressRun rf wf msg size).1 false =
      true :=
  randChunkLoop_refreshed rf wf msg size size 0 false (by omega)

/-- C9: on a device extent of 0 bytes, a wipe pass of either writer
completes immediately with an empty trace — zero chunk writes, zero
progress invocations — and returns success. -/
theorem C9_zero_size_completes_immediately (fa rf wf : Option Nat)
    (msg msg2 : String) :
    wipeWithPatternRun fa msg 0 = ([], none) ∧
    wipeWithProgressRun rf wf msg2 0 = ([], none) := by
  constructor
  · show chunkLoop fa msg 0 0 = ([], none)
    rw [chunkLoop_stop fa msg 0 0 (by omega)]
  · show randChunkLoop rf wf msg2 0 0 = ([], none)
    rw [randChunkLoop_stop rf wf msg2 0 0 (by omega)]

theorem mem_cons_replicate (x a b : Nat) (n : Nat)
    (hx : x ∈ a :: b :: List.replicate n 0) : x = a ∨ x = b ∨ x = 0 := by
  rcases List.mem_cons.mp hx with h | hx2
  · exact Or.inl h
  rcases List.mem_cons.mp hx2 with h | h3
  · exact Or.inr (Or.inl h)
  · exact Or.inr (Or.inr (List.eq_of_mem_replicate h3))

theorem getD_cons_cons_replicate (a b : Nat) (n i : Nat) :
    (a :: b :: List.replicate n 0).getD (i + 2) 0 = 0 := by
  rw [show i + 2 = (i + 1) + 1 from rfl, List.getD_cons_succ,
    List.getD_cons_succ, List.getD_eq_getElem?_getD, List.getElem?_replicate]
  by_cases h : i < n
  · rw [if_pos h]
    rfl
  · rw [if_neg h]
    rfl

/-- C3 counterexample: a 1 MiB device prefix whose bytes are 55 AA at
offsets 0 and 1 and zero everywhere else contains none of the signatures
at the positions the claim names (nothing at 510/511 or 1080/1081, no GPT,
NTFS or FAT32 text anywhere), yet verify_wiped returns Ok false, because
the code scans every signature — including 55 AA and 53 EF — at every
offset of the prefix, not only at the conventional offsets. -/
theorem C3_counterexample :
    verify_wiped (0x55 :: 0xAA :: List.replicate (mib - 2) 0) =
      Except.ok false ∧
    ¬ specSignaturePresent (0x55 :: 0xAA :: List.replicate (mib - 2) 0) := by
  have hlen : (0x55 :: 0xAA :: List.replicate (mib - 2) 0).length = mib := by
    rw [List.length_cons, List.length_cons, List.length_replicate]
    have h2 : mib = 1048576 := rfl
    omega
  have htake : (0x55 :: 0xAA :: List.replicate (mib - 2) 0).take mib =
      0x55 :: 0xAA :: List.replicate (mib - 2) 0 :=
    List.take_of_length_le (le_of_eq hlen)
  constructor
  · unfold verify_wiped
    rw [if_neg (by rw [hlen]; omega)]
    rw [if_pos]
    rw [List.any_eq_true]
    refine ⟨[0x55, 0xAA], by decide, ?_⟩
    rw [htake]
    exact decide_eq_true ⟨[], List.replicate (mib - 2) 0, rfl⟩
  · intro hsp
    have hmem := mem_cons_replicate
    rcases hsp with h | h | h | h | h
    · have h45 := h.sublist.subset (show (0x45 : Nat) ∈ _ by decide)
      rcases mem_cons_replicate _ _ _ _ h45 with h' | h' | h' <;>
        exact absurd h' (by decide)
    · have := getD_cons_cons_replicate 0x55 0xAA (mib - 2) 508
      rw [show (508 : Nat) + 2 = 510 from rfl] at this
      rw [this] at h
      exact absurd h.1 (by decide)
    · have := getD_cons_cons_replicate 0x55 0xAA (mib - 2) 1078
      rw [show (1078 : Nat) + 2 = 1080 from rfl] at this
      rw [this] at h
      exact absurd h.1 (by decide)
    · have h4E := h.sublist.subset (show (0x4E : Nat) ∈ _ by decide)
      rcases mem_cons_replicate _ _ _ _ h4E with h' | h' | h' <;>
        exact absurd h' (by decide)
    · have h46 := h.sublist.subset (show (0x46 : Nat) ∈ _ by decide)
      rcases mem_cons_replicate _ _ _ _ h46 with h' | h' | h' <;>
        exact absurd h' (by decide)

/-- C3 amended: for every device of at least 1 MiB, verify_wiped returns
Ok true iff none of the five signature byte strings (EFI PART, 55 AA,
NTFS, FAT32, 53 EF) occurs anywhere — at any byte offset — in the 1 MiB
prefix; the conventional offsets (510 for 55 AA, 0x438 for 53 EF) are not
enforced by the scan. -/
theorem C3_verify_scans_anywhere (device : List Nat)
    (h : mib ≤ device.length) :
    verify_wiped device = Except.ok true ↔
      ∀ sig ∈ scanSignatures, ¬ sig <:+: device.take mib := by
  have hnot : ¬ device.length < mib := by omega
  unfold verify_wiped
  rw [if_neg hnot]
  by_cases hs :
      scanSignatures.any (fun sig => decide (sig <:+: device.take mib)) = true
  · rw [if_pos hs]
    constructor
    · intro hh
      simp at hh
    · intro hall
      exfalso
      rw [List.any_eq_true] at hs
      rcases hs with ⟨sig, hmem, hdec⟩
      exact hall sig hmem (of_decide_eq_true hdec)
  · rw [if_neg hs]
    constructor
    · intro _ sig hmem hinf
      apply hs
      rw [List.any_eq_true]
      exact ⟨sig, hmem, decide_eq_true hinf⟩
    · intro _
      rfl

/-- C3 witness: an all-zero 1 MiB device scans clean and verify_wiped
returns Ok true on it. -/
theorem C3_verify_scans_anywhere_witness :
    verify_wiped (List.replicate mib 0) = Except.ok true := by
  have hlen : mib ≤ (List.replicate mib (0 : Nat)).length :=
    le_of_eq (List.length_replicate mib 0).symm
  apply (C3_verify_scans_anywhere (List.replicate mib 0) hlen).mpr
  intro sig hmem hinf
  have htake : (List.replicate mib (0 : Nat)).take mib =
      List.replicate mib (0 : Nat) := by
    rw [List.take_replicate]
    rw [Nat.min_self]
  rw [htake] at hinf
  have hsub := hinf.sublist.subset
  fin_cases hmem
  · exact absurd
      (List.eq_of_mem_replicate (hsub (show (69 : Nat) ∈ _ by decide)))
      (by decide)
  · exact absurd
      (List.eq_of_mem_replicate (hsub (show (85 : Nat) ∈ _ by decide)))
      (by decide)
  · exact absurd
      (List.eq_of_mem_replicate (hsub (show (78 : Nat) ∈ _ by decide)))
      (by decide)
  · exact absurd
      (List.eq_of_mem_replicate (hsub (show (70 : Nat) ∈ _ by decide)))
      (by decide)
  · exact absurd
      (List.eq_of_mem_replicate (hsub (show (83 : Nat) ∈ _ by decide)))
      (by decide)

/-- C10: verify_wiped requires reading exactly 1 MiB (read_exact) from
the start of the device, so on any device smaller than 1 MiB it returns
an error and never returns Ok true or Ok false. -/
theorem C10_verify_requires_full_mib (device : List Nat)
    (h : device.length < mib) :
    verify_wiped device =
      Except.error
        (WipeError.device "Failed to read: unexpected end of file") ∧
    ∀ b : Bool, verify_wiped device ≠ Except.ok b := by
  have hv : verify_wiped device =
      Except.error
        (WipeError.device "Failed to read: unexpected end of file") := by
    unfold verify_wiped
    rw [if_pos h]
  refine ⟨hv, fun b hb => ?_⟩
  rw [hv] at hb
  cases hb

theorem patternTrace_two_chunks :
    (wipeWithPatternRun none "" (2 * chunkSize)).1 =
      [Ev.write 0 chunkSize, Ev.prog 50, Ev.write chunkSize chunkSize,
        Ev.prog 100] := by
  have hC := chunkSize_pos
  show (chunkLoop none "" (2 * chunkSize) 0).1 = _
  rw [chunkLoop_step_fst none "" (2 * chunkSize) 0 (by omega) (by simp)]
  have hmin1 : min chunkSize (2 * chunkSize - 0) = chunkSize := by
    omega
  rw [hmin1, Nat.zero_add]
  rw [chunkLoop_step_fst none "" (2 * chunkSize) chunkSize (by omega)
    (by simp)]
  have hmin2 : min chunkSize (2 * chunkSize - chunkSize) = chunkSize := by
    omega
  rw [hmin2]
  rw [chunkLoop_stop none "" (2 * chunkSize) (chunkSize + chunkSize)
    (by omega)]
  have hp1 : pct chunkSize (2 * chunkSize) = 50 := by
    decide
  have hp2 : pct (chunkSize + chunkSize) (2 * chunkSize) = 100 := by
    decide
  rw [hp1, hp2]

theorem specPairs_two_chunks :
    specProgressPairs (2 * chunkSize) 0 =
      [(chunkSize, 2 * chunkSize), (2 * chunkSize, 2 * chunkSize)] := by
  have hC := chunkSize_pos
  rw [specProgressPairs_step (2 * chunkSize) 0 (by omega)]
  have hmin1 : min chunkSize (2 * chunkSize - 0) = chunkSize := by
    omega
  rw [hmin1, Nat.zero_add]
  rw [specProgressPairs_step (2 * chunkSize) chunkSize (by omega)]
  have hmin2 : min chunkSize (2 * chunkSize - chunkSize) = chunkSize := by
    omega
  rw [hmin2]
  rw [specProgressPairs_stop (2 * chunkSize) (chunkSize + chunkSize)
    (by omega)]
  have h2 : chunkSize + chunkSize = 2 * chunkSize := by
    ring
  rw [h2]

/-- C8 counterexample: the claim says the progress sink receives the pair
(bytesWrittenSoFar, passSizeBytes) after each chunk.  On an 8 MiB device
the code invokes the sink with the percentages 50 and 100, not with the
cumulative byte counts 4194304 and 8388608 the spec's pairs would supply,
so the sink's arguments are not the claimed byte counts. -/
theorem C8_counterexample :
    progValues (wipeWithPatternRun none "" (2 * chunkSize)).1 = [50, 100] ∧
    (specProgressPairs (2 * chunkSize) 0).map Prod.fst =
      [chunkSize, 2 * chunkSize] ∧
    progValues (wipeWithPatternRun none "" (2 * chunkSize)).1 ≠
      (specProgressPairs (2 * chunkSize) 0).map Prod.fst := by
  have h1 : progValues (wipeWithPatternRun none "" (2 * chunkSize)).1 =
      [50, 100] := by
    rw [patternTrace_two_chunks]
    rfl
  have h2 : (specProgressPairs (2 * chunkSize) 0).map Prod.fst =
      [chunkSize, 2 * chunkSize] := by
    rw [specPairs_two_chunks]
    rfl
  refine ⟨h1, h2, ?_⟩
  rw [h1, h2]
  decide

/-- C8 amended: within every pass of both writers (the fixed-pattern
writer wipe_with_pattern and the random writer wipe_with_progress), after
each chunk write the progress sink is invoked synchronously exactly once
before the next chunk write begins, but with a single rounded percentage
(100 * bytesWrittenSoFar / passSizeBytes, as a truncated integer), not
with the pair (bytesWrittenSoFar, passSizeBytes); on a 100-byte device
with 4 MiB chunks either writer invokes the sink exactly once, with the
value 100. -/
theorem C8_progress_sync_percent (msg : String) (size : Nat) :
    writeThenProg (wipeWithPatternRun none msg size).1 = true ∧
    progValues (wipeWithPatternRun none msg size).1 =
      (specProgressPairs size 0).map (fun pr => pct pr.1 pr.2) ∧
    readWriteThenProg (wipeWithProgressRun none none msg size).1 = true ∧
    progValues (wipeWithProgressRun none none msg size).1 =
      (specProgressPairs size 0).map (fun pr => pct pr.1 pr.2) ∧
    (wipeWithPatternRun none msg 100).1 = [Ev.write 0 100, Ev.prog 100] ∧
    (wipeWithProgressRun none none msg 100).1 =
      [Ev.readRand chunkSize, Ev.write 0 100, Ev.prog 100] := by
  have h := chunkLoop_none_shape msg size size 0 (by omega)
  have hr := randChunkLoop_none_shape msg size size 0 (by omega)
  have hok : (wipeWithPatternRun none msg 100).2 = none :=
    chunkLoop_none_ok msg 100 100 0 (by omega)
  have hokr : (wipeWithProgressRun none none msg 100).2 = none :=
    randChunkLoop_none_ok msg 100 100 0 (by omega)
  exact ⟨h.1, h.2, hr.1, hr.2,
    chunkLoop_single none msg 100 (by decide) (by decide) hok,
    randChunkLoop_single none none msg 100 (by decide) (by decide) hokr⟩

theorem dodRunFail (passes size q : Nat) (msg : String)
    (hK : chunkSize * q < size) :
    (nukeDriveRun WipePattern.dod passes (failPass2Env (chunkSize * q) msg)
        size).2 =
      some (WipeError.device ("Failed to write: " ++ msg)) ∧
    passEvents (nukeDriveRun WipePattern.dod passes
        (failPass2Env (chunkSize * q) msg) size).1 3 = [] ∧
    writesOf (passEvents (nukeDriveRun WipePattern.dod passes
        (failPass2Env (chunkSize * q) msg) size).1 2) =
      (List.range q).map (fun i => (i * chunkSize, chunkSize)) ∧
    totalWritten (passEvents (nukeDriveRun WipePattern.dod passes
        (failPass2Env (chunkSize * q) msg) size).1 1) = size := by
  have hdef : nukeDriveRun WipePattern.dod passes
      (failPass2Env (chunkSize * q) msg) size =
      runSchedule (failPass2Env (chunkSize * q) msg) size 1
        [PassKind.fixedByte 0x00, PassKind.fixedByte 0xFF,
          PassKind.random] := rfl
  have hp1 : runPass (failPass2Env (chunkSize * q) msg) 1
      (PassKind.fixedByte 0x00) size = chunkLoop none msg size 0 := rfl
  have hp2 : runPass (failPass2Env (chunkSize * q) msg) 2
      (PassKind.fixedByte 0xFF) size =
      chunkLoop (some (chunkSize * q)) msg size 0 := rfl
  have hok1 : (chunkLoop none msg size 0).2 = none :=
    chunkLoop_none_ok msg size size 0 (by omega)
  have hsum1 : totalWritten (chunkLoop none msg size 0).1 = size := by
    have h := chunkLoop_sum none msg size size 0 (by omega) hok1
    omega
  have hfail := chunkLoop_failWrites msg q size 0 (by omega)
  have h0q : (0 : Nat) + chunkSize * q = chunkSize * q := Nat.zero_add _
  rw [h0q] at hfail
  have hok1' : (runPass (failPass2Env (chunkSize * q) msg) 1
      (PassKind.fixedByte 0x00) size).2 = none := by
    rw [hp1]
    exact hok1
  have herr2 : (runPass (failPass2Env (chunkSize * q) msg) 2
      (PassKind.fixedByte 0xFF) size).2 =
      some (WipeError.device ("Failed to write: " ++ msg)) := by
    rw [hp2]
    exact hfail.1
  have hs1 := runSchedule_cons_ok (failPass2Env (chunkSize * q) msg) size 1
    (PassKind.fixedByte 0x00) [PassKind.fixedByte 0xFF, PassKind.random]
    hok1'
  have hs2 := runSchedule_cons_err (failPass2Env (chunkSize * q) msg) size 2
    (PassKind.fixedByte 0xFF) [PassKind.random]
    (WipeError.device ("Failed to write: " ++ msg)) herr2
  have hall : runSchedule (failPass2Env (chunkSize * q) msg) size 1
      [PassKind.fixedByte 0x00, PassKind.fixedByte 0xFF, PassKind.random] =
      ((runPass (failPass2Env (chunkSize * q) msg) 1
          (PassKind.fixedByte 0x00) size).1.map (fun ev => (1, ev)) ++
        (runPass (failPass2Env (chunkSize * q) msg) 2
          (PassKind.fixedByte 0xFF) size).1.map (fun ev => (2, ev)),
        some (WipeError.device ("Failed to write: " ++ msg))) := by
    rw [hs1, hs2]
  have htr : (nukeDriveRun WipePattern.dod passes
      (failPass2Env (chunkSize * q) msg) size).1 =
      (runPass (failPass2Env (chunkSize * q) msg) 1
        (PassKind.fixedByte 0x00) size).1.map (fun ev => (1, ev)) ++
      (runPass (failPass2Env (chunkSize * q) msg) 2
        (PassKind.fixedByte 0xFF) size).1.map (fun ev => (2, ev)) := by
    rw [hdef, hall]
  refine ⟨?_, ?_, ?_, ?_⟩
  · rw [hdef, hall]
  · rw [htr, passEvents_append, passEvents_tag_ne _ 1 3 (by decide),
      passEvents_tag_ne _ 2 3 (by decide)]
    rfl
  · rw [htr, passEvents_append, passEvents_tag_ne _ 1 2 (by decide),
      passEvents_tag_eq, List.nil_append, hp2, hfail.2]
    apply List.map_congr_left
    intro i _hi
    rw [Nat.zero_add]
  · rw [htr, passEvents_append, passEvents_tag_eq,
      passEvents_tag_ne _ 2 1 (by decide), List.append_nil, hp1]
    exact hsum1

/-- C4 amended: when the device write at chunk-aligned byte offset K
(K = chunkSize * q) fails during pass 2 of the DoD standard, the whole
operation aborts with the error Device("Failed to write: " ++ the OS error
text): pass 3 never executes, pass 2 performed exactly the q full-chunk
writes below K with no retry, and pass 1 had already written the whole
device.  The returned error carries only the formatted OS error message —
not the byte offset reached (see the counterexample). -/
theorem C4_failure_aborts_pass (passes size q : Nat) (msg : String)
    (hK : chunkSize * q < size) :
    (nukeDriveRun WipePattern.dod passes (failPass2Env (chunkSize * q) msg)
        size).2 =
      some (WipeError.device ("Failed to write: " ++ msg)) ∧
    passEvents (nukeDriveRun WipePattern.dod passes
        (failPass2Env (chunkSize * q) msg) size).1 3 = [] ∧
    writesOf (passEvents (nukeDriveRun WipePattern.dod passes
        (failPass2Env (chunkSize * q) msg) size).1 2) =
      (List.range q).map (fun i => (i * chunkSize, chunkSize)) ∧
    totalWritten (passEvents (nukeDriveRun WipePattern.dod passes
        (failPass2Env (chunkSize * q) msg) size).1 1) = size :=
  dodRunFail passes size q msg hK

/-- C4 witness: the amended statement on a 100-byte device whose pass-2
write at offset 0 fails with OS error text x. -/
theorem C4_failure_aborts_pass_witness :
    (nukeDriveRun WipePattern.dod 0 (failPass2Env (chunkSize * 0) "x")
        100).2 =
      some (WipeError.device ("Failed to write: " ++ "x")) ∧
    passEvents (nukeDriveRun WipePattern.dod 0
        (failPass2Env (chunkSize * 0) "x") 100).1 3 = [] ∧
    writesOf (passEvents (nukeDriveRun WipePattern.dod 0
        (failPass2Env (chunkSize * 0) "x") 100).1 2) =
      (List.range 0).map (fun i => (i * chunkSize, chunkSize)) ∧
    totalWritten (passEvents (nukeDriveRun WipePattern.dod 0
        (failPass2Env (chunkSize * 0) "x") 100).1 1) = 100 :=
  C4_failure_aborts_pass 0 100 0 "x" (by decide)

/-- C4 counterexample: the claim says the returned error carries the byte
offset K that was reached.  Two runs whose pass-2 write fails at the
distinct offsets 0 and 4194304 on the same 8 MiB device return the very
same error value Device("Failed to write: boom"), so the error cannot
reference (or determine) the offset reached. -/
theorem C4_counterexample :
    (nukeDriveRun WipePattern.dod 3 (failPass2Env (chunkSize * 0) "boom")
        (2 * chunkSize)).2 =
      (nukeDriveRun WipePattern.dod 3 (failPass2Env (chunkSize * 1) "boom")
        (2 * chunkSize)).2 ∧
    (nukeDriveRun WipePattern.dod 3 (failPass2Env (chunkSize * 0) "boom")
        (2 * chunkSize)).2 =
      some (WipeError.device ("Failed to write: " ++ "boom")) ∧
    ¬ chunkSize * 0 = chunkSize * 1 := by
  have h0 := (dodRunFail 3 (2 * chunkSize) 0 "boom" (by decide)).1
  have h1 := (dodRunFail 3 (2 * chunkSize) 1 "boom" (by decide)).1
  refine ⟨?_, h0, by decide⟩
  rw [h0, h1]

/-- C10 witness: the empty device is shorter than 1 MiB and verify_wiped
errors on it. -/
theorem C10_verify_requires_full_mib_witness :
    verify_wiped [] =
      Except.error
        (WipeError.device "Failed to read: unexpected end of file") :=
  (C10_verify_requires_full_mib [] (by decide)).1

end UsbBootHut
